import Mathlib

set_option linter.unusedSectionVars false

/-!
Verification of the `Bimap` bidirectional map (src/lib.rs).

A `HashMap` is modelled as an association list whose keys are pairwise
distinct.  `hfind` models `HashMap::get`, `herase` models `HashMap::remove`
(it drops the first entry with the given key, which on a duplicate-free list
is the unique entry), and `hinsert` models the overwriting
`HashMap::insert` used by `collect`.  Panics are modelled by `Option`
(`none` = panic) and, for `Bimap.insert`, by `Except` whose error value is
the map state at the moment the panic fires.
-/

section HMapModel

variable {α β : Type} [DecidableEq α]

/-- `HashMap::get`: the value of the first entry with the given key. -/
def hfind (m : List (α × β)) (a : α) : Option β :=
  match m with
  | [] => none
  | p :: rest => if a = p.1 then some p.2 else hfind rest a

/-- `HashMap::remove`: drop the first entry with the given key. -/
def herase (m : List (α × β)) (a : α) : List (α × β) :=
  match m with
  | [] => []
  | p :: rest => if a = p.1 then rest else p :: herase rest a

/-- Overwriting `HashMap::insert`, as performed by `collect`. -/
def hinsert (m : List (α × β)) (a : α) (b : β) : List (α × β) :=
  (a, b) :: herase m a

/-- The keys of an association list. -/
def hkeys (m : List (α × β)) : List α :=
  m.map Prod.fst

/-- A list models a `HashMap` when its keys are pairwise distinct. -/
def HKeysNodup (m : List (α × β)) : Prop :=
  (hkeys m).Nodup

end HMapModel

/-- The `Bimap` struct: a forward index `fwd : HashMap<K, V>` and a reverse
index `rev : HashMap<V, K>`. -/
structure Bimap (K V : Type) where
  fwd : List (K × V)
  rev : List (V × K)
deriving DecidableEq

namespace Bimap

variable {K V : Type} [DecidableEq K] [DecidableEq V]

/-- `Bimap::new`: the empty bimap. -/
def new : Bimap K V := ⟨[], []⟩

/-- `Bimap::from_hash_map`: keep `fwd`, derive `rev` by inverting every pair
and collecting (later pairs overwrite earlier ones on a duplicate value). -/
def from_hash_map (fwd : List (K × V)) : Bimap K V :=
  ⟨fwd, fwd.foldl (fun r p => hinsert r p.2 p.1) []⟩

/-- `Bimap::len`: the length of the forward index. -/
def len (m : Bimap K V) : Nat :=
  m.fwd.length

/-- `Bimap::is_empty`: whether the forward index is empty. -/
def is_empty (m : Bimap K V) : Bool :=
  m.fwd.isEmpty

/-- `Bimap::clear`: empty both indexes. -/
def clear (_m : Bimap K V) : Bimap K V :=
  ⟨[], []⟩

/-- `Bimap::insert`: insert into `fwd` if the key is vacant, else panic;
then insert into `rev` if the value is vacant, else panic.  The `error`
payload is the state of the map when the panic fires. -/
def insert (m : Bimap K V) (k : K) (v : V) : Except (Bimap K V) (Bimap K V) :=
  if (hfind m.fwd k).isSome then
    .error m
  else
    let fwd1 := (k, v) :: m.fwd
    if (hfind m.rev v).isSome then
      .error ⟨fwd1, m.rev⟩
    else
      .ok ⟨fwd1, (v, k) :: m.rev⟩

/-- `Bimap::get_fwd`: look up a key in the forward index. -/
def get_fwd (m : Bimap K V) (k : K) : Option V :=
  hfind m.fwd k

/-- `Bimap::get_rev`: look up a value in the reverse index. -/
def get_rev (m : Bimap K V) (v : V) : Option K :=
  hfind m.rev v

/-- `Bimap::remove_fwd`: remove by key from `fwd`, unwrap (panic = `none`),
then remove the returned value from `rev`; returns the value and the new
state. -/
def remove_fwd (m : Bimap K V) (k : K) : Option (V × Bimap K V) :=
  match hfind m.fwd k with
  | none => none
  | some v => some (v, ⟨herase m.fwd k, herase m.rev v⟩)

/-- `Bimap::remove_rev`: remove by value from `rev`, unwrap (panic = `none`),
then remove the returned key from `fwd`; returns the key and the new
state. -/
def remove_rev (m : Bimap K V) (v : V) : Option (K × Bimap K V) :=
  match hfind m.rev v with
  | none => none
  | some k => some (k, ⟨herase m.fwd k, herase m.rev v⟩)

/-- `Bimap::contains_fwd`: whether the forward index contains the key. -/
def contains_fwd (m : Bimap K V) (k : K) : Bool :=
  (hfind m.fwd k).isSome

/-- `Bimap::contains_rev`: whether the reverse index contains the value. -/
def contains_rev (m : Bimap K V) (v : V) : Bool :=
  (hfind m.rev v).isSome

/-- `Bimap::iter`: iteration over the forward index. -/
def iter (m : Bimap K V) : List (K × V) :=
  m.fwd

/-- The bijection invariant: the two indexes encode the same set of pairs. -/
def bijective (m : Bimap K V) : Prop :=
  ∀ k v, hfind m.fwd k = some v ↔ hfind m.rev v = some k

/-- Well-formed bimap states: duplicate-free indexes of equal size in
bijection. -/
def WF (m : Bimap K V) : Prop :=
  HKeysNodup m.fwd ∧ HKeysNodup m.rev ∧ bijective m ∧ m.fwd.length = m.rev.length

/-- One successful (non-panicking) mutation of a bimap. -/
inductive Step : Bimap K V → Bimap K V → Prop
  | insert (m m' : Bimap K V) (k : K) (v : V) :
      m.insert k v = .ok m' → Step m m'
  | remove_fwd (m m' : Bimap K V) (k : K) (v : V) :
      m.remove_fwd k = some (v, m') → Step m m'
  | remove_rev (m m' : Bimap K V) (v : V) (k : K) :
      m.remove_rev v = some (k, m') → Step m m'
  | clear (m : Bimap K V) : Step m m.clear

/-- States reachable from the empty bimap by successful operations. -/
inductive Reachable : Bimap K V → Prop
  | empty : Reachable new
  | step {m m' : Bimap K V} : Reachable m → Step m m' → Reachable m'

end Bimap

section HMapLemmas

variable {α β : Type} [DecidableEq α]

theorem hkeys_cons (p : α × β) (m : List (α × β)) :
    hkeys (p :: m) = p.1 :: hkeys m := rfl

theorem mem_hkeys {m : List (α × β)} {a : α} {b : β} (h : (a, b) ∈ m) :
    a ∈ hkeys m :=
  List.mem_map_of_mem Prod.fst h

theorem hfind_cons {a x : α} {b : β} {rest : List (α × β)} :
    hfind ((a, b) :: rest) x = if x = a then some b else hfind rest x := rfl

theorem herase_cons {a x : α} {b : β} {rest : List (α × β)} :
    herase ((a, b) :: rest) x = if x = a then rest else (a, b) :: herase rest x := rfl

theorem hfind_eq_none_iff {m : List (α × β)} {a : α} :
    hfind m a = none ↔ a ∉ hkeys m := by
  induction m with
  | nil => simp [hfind, hkeys]
  | cons p rest ih =>
    rw [hkeys_cons]
    by_cases h : a = p.1
    · simp [hfind, h]
    · simp [hfind, h, ih]

theorem hfind_mem {m : List (α × β)} {a : α} {b : β} (h : hfind m a = some b) :
    (a, b) ∈ m := by
  induction m with
  | nil => simp [hfind] at h
  | cons p rest ih =>
    simp only [hfind] at h
    split at h
    · next hp =>
      injection h with hb
      rw [hp, ← hb]
      simp
    · next hp =>
      exact List.mem_cons_of_mem p (ih h)

theorem hfind_isSome_iff {m : List (α × β)} {a : α} :
    (hfind m a).isSome = true ↔ a ∈ hkeys m := by
  constructor
  · intro h
    rcases Option.isSome_iff_exists.mp h with ⟨b, hb⟩
    exact mem_hkeys (hfind_mem hb)
  · intro h
    rcases he : hfind m a with _ | b
    · exact absurd h (hfind_eq_none_iff.mp he)
    · simp

theorem mem_hfind {m : List (α × β)} {a : α} {b : β} (hn : HKeysNodup m)
    (h : (a, b) ∈ m) : hfind m a = some b := by
  induction m with
  | nil => simp at h
  | cons p rest ih =>
    rw [HKeysNodup, hkeys_cons, List.nodup_cons] at hn
    rcases List.mem_cons.mp h with h | h
    · rw [← h]
      simp [hfind]
    · have ha : a ≠ p.1 := fun he => hn.1 (he ▸ mem_hkeys h)
      simp only [hfind]
      rw [if_neg ha]
      exact ih hn.2 h

theorem herase_sublist (m : List (α × β)) (a : α) : (herase m a).Sublist m := by
  induction m with
  | nil => simp [herase]
  | cons p rest ih =>
    simp only [herase]
    split
    · exact List.sublist_cons_self p rest
    · exact ih.cons₂ p

theorem hkeys_nodup_herase {m : List (α × β)} (a : α) (hn : HKeysNodup m) :
    HKeysNodup (herase m a) :=
  List.Nodup.sublist ((herase_sublist m a).map Prod.fst) hn

theorem hfind_herase_self {m : List (α × β)} {a : α} (hn : HKeysNodup m) :
    hfind (herase m a) a = none := by
  induction m with
  | nil => simp [herase, hfind]
  | cons p rest ih =>
    rw [HKeysNodup, hkeys_cons, List.nodup_cons] at hn
    simp only [herase]
    split
    · next hp =>
      exact hfind_eq_none_iff.mpr (by rw [hp]; exact hn.1)
    · next hp =>
      simp only [hfind]
      rw [if_neg hp]
      exact ih hn.2

theorem hfind_herase_ne {m : List (α × β)} {a b : α} (h : b ≠ a) :
    hfind (herase m a) b = hfind m b := by
  induction m with
  | nil => simp [herase]
  | cons p rest ih =>
    simp only [herase]
    split
    · next hp =>
      simp only [hfind]
      rw [if_neg (fun hb => h (hb.trans hp.symm))]
    · next hp =>
      simp only [hfind]
      by_cases hb : b = p.1
      · rw [if_pos hb, if_pos hb]
      · rw [if_neg hb, if_neg hb]
        exact ih

theorem length_herase {m : List (α × β)} {a : α} (h : a ∈ hkeys m) :
    (herase m a).length + 1 = m.length := by
  induction m with
  | nil => simp [hkeys] at h
  | cons p rest ih =>
    rw [hkeys_cons, List.mem_cons] at h
    simp only [herase]
    split
    · simp
    · next hp =>
      rcases h with h | h
      · exact absurd h hp
      · have := ih h
        simp only [List.length_cons]
        omega

theorem hfind_append {m1 m2 : List (α × β)} {a : α} :
    hfind (m1 ++ m2) a =
      match hfind m1 a with
      | some b => some b
      | none => hfind m2 a := by
  induction m1 with
  | nil => simp [hfind]
  | cons p rest ih =>
    by_cases h : a = p.1
    · simp [hfind, h]
    · simp [hfind, h, ih]

theorem hfind_hinsert_self {m : List (α × β)} {a : α} {b : β} :
    hfind (hinsert m a b) a = some b := by
  simp [hinsert, hfind]

theorem hfind_hinsert_ne {m : List (α × β)} {a x : α} {b : β} (h : x ≠ a) :
    hfind (hinsert m a b) x = hfind m x := by
  simp only [hinsert, hfind]
  rw [if_neg h]
  exact hfind_herase_ne h

theorem hkeys_nodup_hinsert {m : List (α × β)} {a : α} {b : β}
    (hn : HKeysNodup m) : HKeysNodup (hinsert m a b) := by
  rw [HKeysNodup, hinsert, hkeys_cons, List.nodup_cons]
  exact ⟨hfind_eq_none_iff.mp (hfind_herase_self hn), hkeys_nodup_herase a hn⟩

theorem isSome_false_eq_none {γ : Type} {o : Option γ} (h : o.isSome = false) :
    o = none := by
  rcases o with _ | x
  · rfl
  · simp at h

/-- `collect`ing the inverted pairs of `l` on top of `r0` finds the last
inversion of each value in `l`, falling back to `r0`. -/
theorem hfind_fold_hinsert [DecidableEq β] (l : List (α × β))
    (r0 : List (β × α)) (b : β) :
    hfind (l.foldl (fun r p => hinsert r p.2 p.1) r0) b =
      match hfind (l.reverse.map (fun q => (q.2, q.1))) b with
      | some a => some a
      | none => hfind r0 b := by
  induction l generalizing r0 with
  | nil => simp [hfind]
  | cons p t ih =>
    rw [List.foldl_cons, ih]
    rw [show (p :: t).reverse.map (fun q => (q.2, q.1)) =
        t.reverse.map (fun q => (q.2, q.1)) ++ [(p.2, p.1)] by
      rw [List.reverse_cons, List.map_append]
      rfl]
    rw [hfind_append]
    generalize hfind (t.reverse.map (fun q => (q.2, q.1))) b = o
    rcases o with _ | a
    · show hfind (hinsert r0 p.2 p.1) b =
        match hfind [(p.2, p.1)] b with
        | some a => some a
        | none => hfind r0 b
      by_cases hb : b = p.2
      · subst hb
        rw [hfind_hinsert_self, hfind_cons, if_pos rfl]
      · rw [hfind_hinsert_ne hb, hfind_cons, if_neg hb]
        rfl
    · rfl

theorem hkeys_nodup_fold [DecidableEq β] (l : List (α × β))
    (r0 : List (β × α)) (hn : HKeysNodup r0) :
    HKeysNodup (l.foldl (fun r p => hinsert r p.2 p.1) r0) := by
  induction l generalizing r0 with
  | nil => exact hn
  | cons p t ih =>
    rw [List.foldl_cons]
    exact ih _ (hkeys_nodup_hinsert hn)

instance {m : List (α × β)} : Decidable (HKeysNodup m) := by
  unfold HKeysNodup
  infer_instance

end HMapLemmas

instance {K V : Type} [DecidableEq K] [DecidableEq V] [Fintype K] [Fintype V]
    (m : Bimap K V) : Decidable m.bijective := by
  unfold Bimap.bijective
  infer_instance

instance {K V : Type} [DecidableEq K] [DecidableEq V] [Fintype K] [Fintype V]
    (m : Bimap K V) : Decidable m.WF := by
  unfold Bimap.WF
  infer_instance

namespace Bimap

variable {K V : Type} [DecidableEq K] [DecidableEq V]

theorem wf_new : WF (new : Bimap K V) := by
  refine ⟨List.nodup_nil, List.nodup_nil, ?_, rfl⟩
  intro k v
  simp [new, hfind]

theorem insert_eq_ok_iff {m m' : Bimap K V} {k : K} {v : V} :
    m.insert k v = .ok m' ↔
      hfind m.fwd k = none ∧ hfind m.rev v = none ∧
        m' = ⟨(k, v) :: m.fwd, (v, k) :: m.rev⟩ := by
  constructor
  · intro h
    by_cases h1 : (hfind m.fwd k).isSome
    · simp [insert, h1] at h
    · by_cases h2 : (hfind m.rev v).isSome
      · simp [insert, h1, h2] at h
      · simp only [insert, h1, h2, if_neg, if_false, Bool.false_eq_true,
          Except.ok.injEq] at h
        exact ⟨Option.not_isSome_iff_eq_none.mp h1,
          Option.not_isSome_iff_eq_none.mp h2, h.symm⟩
  · rintro ⟨h1, h2, rfl⟩
    simp [insert, h1, h2]

theorem insert_eq_error_iff {m : Bimap K V} {k : K} {v : V} :
    (∃ s, m.insert k v = .error s) ↔
      (hfind m.fwd k).isSome = true ∨ (hfind m.rev v).isSome = true := by
  constructor
  · rintro ⟨s, hs⟩
    by_cases h1 : (hfind m.fwd k).isSome
    · exact Or.inl h1
    · by_cases h2 : (hfind m.rev v).isSome
      · exact Or.inr h2
      · simp [insert, h1, h2] at hs
  · intro h
    by_cases h1 : (hfind m.fwd k).isSome
    · exact ⟨m, by simp [insert, h1]⟩
    · rcases h with h | h
      · exact absurd h h1
      · exact ⟨⟨(k, v) :: m.fwd, m.rev⟩, by simp [insert, h1, h]⟩

theorem remove_fwd_eq_some_iff {m m' : Bimap K V} {k : K} {v : V} :
    m.remove_fwd k = some (v, m') ↔
      hfind m.fwd k = some v ∧ m' = ⟨herase m.fwd k, herase m.rev v⟩ := by
  constructor
  · intro h
    rcases he : hfind m.fwd k with _ | v0
    · rw [remove_fwd, he] at h
      exact Option.noConfusion h
    · rw [remove_fwd, he] at h
      injection h with h
      injection h with hv hm
      subst hv
      exact ⟨rfl, hm.symm⟩
  · rintro ⟨h1, rfl⟩
    rw [remove_fwd, h1]

theorem remove_rev_eq_some_iff {m m' : Bimap K V} {k : K} {v : V} :
    m.remove_rev v = some (k, m') ↔
      hfind m.rev v = some k ∧ m' = ⟨herase m.fwd k, herase m.rev v⟩ := by
  constructor
  · intro h
    rcases he : hfind m.rev v with _ | k0
    · rw [remove_rev, he] at h
      exact Option.noConfusion h
    · rw [remove_rev, he] at h
      injection h with h
      injection h with hk hm
      subst hk
      exact ⟨rfl, hm.symm⟩
  · rintro ⟨h1, rfl⟩
    rw [remove_rev, h1]

theorem wf_insert {m m' : Bimap K V} {k : K} {v : V} (hw : WF m)
    (h : m.insert k v = .ok m') : WF m' := by
  obtain ⟨hnf, hnr, hbij, hlen⟩ := hw
  rcases insert_eq_ok_iff.mp h with ⟨h1, h2, rfl⟩
  refine ⟨?_, ?_, ?_, ?_⟩
  · rw [HKeysNodup, hkeys_cons, List.nodup_cons]
    exact ⟨hfind_eq_none_iff.mp h1, hnf⟩
  · rw [HKeysNodup, hkeys_cons, List.nodup_cons]
    exact ⟨hfind_eq_none_iff.mp h2, hnr⟩
  · intro k' v'
    show hfind ((k, v) :: m.fwd) k' = some v' ↔
      hfind ((v, k) :: m.rev) v' = some k'
    rw [hfind_cons, hfind_cons]
    by_cases hk : k' = k
    · subst hk
      rw [if_pos rfl]
      by_cases hv : v' = v
      · subst hv
        rw [if_pos rfl]
        simp
      · rw [if_neg hv]
        constructor
        · intro he
          injection he with he
          exact absurd he.symm hv
        · intro he
          have hfwd := (hbij k' v').mpr he
          rw [h1] at hfwd
          exact Option.noConfusion hfwd
    · rw [if_neg hk]
      by_cases hv : v' = v
      · subst hv
        rw [if_pos rfl]
        constructor
        · intro he
          have hrev := (hbij k' v').mp he
          rw [h2] at hrev
          exact Option.noConfusion hrev
        · intro he
          injection he with he
          exact absurd he.symm hk
      · rw [if_neg hv]
        exact hbij k' v'
  · show ((k, v) :: m.fwd).length = ((v, k) :: m.rev).length
    simp [hlen]

theorem wf_remove_fwd {m m' : Bimap K V} {k : K} {v : V} (hw : WF m)
    (h : m.remove_fwd k = some (v, m')) : WF m' := by
  obtain ⟨hnf, hnr, hbij, hlen⟩ := hw
  rcases remove_fwd_eq_some_iff.mp h with ⟨hf, rfl⟩
  have hr : hfind m.rev v = some k := (hbij k v).mp hf
  refine ⟨hkeys_nodup_herase k hnf, hkeys_nodup_herase v hnr, ?_, ?_⟩
  · intro k' v'
    show hfind (herase m.fwd k) k' = some v' ↔
      hfind (herase m.rev v) v' = some k'
    by_cases hk : k' = k
    · subst hk
      rw [hfind_herase_self hnf]
      by_cases hv : v' = v
      · subst hv
        rw [hfind_herase_self hnr]
        simp
      · rw [hfind_herase_ne hv]
        constructor
        · intro he
          exact Option.noConfusion he
        · intro he
          have hfwd := (hbij k' v').mpr he
          rw [hf] at hfwd
          injection hfwd with hv2
          exact absurd hv2.symm hv
    · rw [hfind_herase_ne hk]
      by_cases hv : v' = v
      · subst hv
        rw [hfind_herase_self hnr]
        constructor
        · intro he
          have hrev := (hbij k' v').mp he
          rw [hr] at hrev
          injection hrev with hk2
          exact absurd hk2.symm hk
        · intro he
          exact Option.noConfusion he
      · rw [hfind_herase_ne hv]
        exact hbij k' v'
  · have h1 := length_herase (mem_hkeys (hfind_mem hf))
    have h2 := length_herase (mem_hkeys (hfind_mem hr))
    show (herase m.fwd k).length = (herase m.rev v).length
    omega

theorem wf_remove_rev {m m' : Bimap K V} {k : K} {v : V} (hw : WF m)
    (h : m.remove_rev v = some (k, m')) : WF m' := by
  rcases remove_rev_eq_some_iff.mp h with ⟨hr, rfl⟩
  have hf : hfind m.fwd k = some v := (hw.2.2.1 k v).mpr hr
  exact wf_remove_fwd hw (remove_fwd_eq_some_iff.mpr ⟨hf, rfl⟩)

theorem wf_clear (m : Bimap K V) : WF m.clear := by
  refine ⟨List.nodup_nil, List.nodup_nil, ?_, rfl⟩
  intro k v
  simp [clear, hfind]

theorem wf_step {m m' : Bimap K V} (hw : WF m) (h : Step m m') : WF m' := by
  cases h with
  | insert _ _ _ hop => exact wf_insert hw hop
  | remove_fwd _ _ _ hop => exact wf_remove_fwd hw hop
  | remove_rev _ _ _ hop => exact wf_remove_rev hw hop
  | clear => exact wf_clear _

theorem reachable_wf {m : Bimap K V} (h : Reachable m) : WF m := by
  induction h with
  | empty => exact wf_new
  | step _ hs ih => exact wf_step ih hs

end Bimap

/-- C1: Bijection invariant — in every state reachable from the empty bimap
by successful operations, `get_fwd k = some v` iff `get_rev v = some k`. -/
theorem C1_bijection_invariant {K V : Type} [DecidableEq K] [DecidableEq V]
    {m : Bimap K V} (h : Bimap.Reachable m) (k : K) (v : V) :
    m.get_fwd k = some v ↔ m.get_rev v = some k :=
  (Bimap.reachable_wf h).2.2.1 k v

theorem C1_bijection_invariant_witness :
    (⟨[(1, 2)], [(2, 1)]⟩ : Bimap Nat Nat).get_fwd 1 = some 2 ↔
      (⟨[(1, 2)], [(2, 1)]⟩ : Bimap Nat Nat).get_rev 2 = some 1 :=
  C1_bijection_invariant
    (Bimap.Reachable.step Bimap.Reachable.empty
      (Bimap.Step.insert Bimap.new ⟨[(1, 2)], [(2, 1)]⟩ 1 2 rfl)) 1 2

/-- C2: Insert partial failure — on a bijective map, inserting a fresh key
with a duplicate value panics after the forward index already holds `(k, v)`
while the reverse index is unchanged, and the resulting state violates the
bijection invariant. -/
theorem C2_insert_partial_failure {K V : Type} [DecidableEq K] [DecidableEq V]
    (m : Bimap K V) (k : K) (v : V) (hbij : m.bijective)
    (hk : m.contains_fwd k = false) (hv : m.contains_rev v = true) :
    m.insert k v = .error ⟨(k, v) :: m.fwd, m.rev⟩ ∧
      (Bimap.mk ((k, v) :: m.fwd) m.rev).get_fwd k = some v ∧
      ¬ (Bimap.mk ((k, v) :: m.fwd) m.rev).bijective := by
  have hk1 : (hfind m.fwd k).isSome = false := hk
  have hv1 : (hfind m.rev v).isSome = true := hv
  have hknone : hfind m.fwd k = none := isSome_false_eq_none hk1
  refine ⟨?_, ?_, ?_⟩
  · simp [Bimap.insert, hk1, hv1]
  · show hfind ((k, v) :: m.fwd) k = some v
    rw [hfind_cons, if_pos rfl]
  · intro hb
    rcases Option.isSome_iff_exists.mp hv1 with ⟨k0, hk0⟩
    have hf0 : hfind m.fwd k0 = some v := (hbij k0 v).mpr hk0
    have hkne : k0 ≠ k := by
      intro he
      rw [he, hknone] at hf0
      exact Option.noConfusion hf0
    have h2 := (hb k v).mp
      (show hfind ((k, v) :: m.fwd) k = some v by rw [hfind_cons, if_pos rfl])
    rw [hk0] at h2
    injection h2 with h2
    exact hkne h2

theorem C2_insert_partial_failure_witness :
    (⟨[(0, 0)], [(0, 0)]⟩ : Bimap (Fin 2) (Fin 2)).insert 1 0 =
        .error ⟨[(1, 0), (0, 0)], [(0, 0)]⟩ ∧
      (Bimap.mk [(1, 0), (0, 0)] [(0, 0)] : Bimap (Fin 2) (Fin 2)).get_fwd 1 =
        some 0 ∧
      ¬ (Bimap.mk [(1, 0), (0, 0)] [(0, 0)] :
          Bimap (Fin 2) (Fin 2)).bijective :=
  C2_insert_partial_failure ⟨[(0, 0)], [(0, 0)]⟩ 1 0 (by decide) rfl rfl

/-- C3: `insert` panics iff the key is already in the forward index or the
value is already in the reverse index; otherwise it succeeds and adds the
pair to both indexes. -/
theorem C3_insert_raises_iff {K V : Type} [DecidableEq K] [DecidableEq V]
    (m : Bimap K V) (k : K) (v : V) :
    ((∃ s, m.insert k v = .error s) ↔
      m.contains_fwd k = true ∨ m.contains_rev v = true) ∧
    (m.contains_fwd k = false → m.contains_rev v = false →
      m.insert k v = .ok ⟨(k, v) :: m.fwd, (v, k) :: m.rev⟩) := by
  constructor
  · exact Bimap.insert_eq_error_iff
  · intro h1 h2
    exact Bimap.insert_eq_ok_iff.mpr
      ⟨isSome_false_eq_none h1, isSome_false_eq_none h2, rfl⟩

theorem C3_insert_raises_iff_witness :
    ((∃ s, (Bimap.new : Bimap Nat Nat).insert 1 2 = .error s) ↔
      (Bimap.new : Bimap Nat Nat).contains_fwd 1 = true ∨
        (Bimap.new : Bimap Nat Nat).contains_rev 2 = true) ∧
    ((Bimap.new : Bimap Nat Nat).contains_fwd 1 = false →
      (Bimap.new : Bimap Nat Nat).contains_rev 2 = false →
      (Bimap.new : Bimap Nat Nat).insert 1 2 = .ok ⟨[(1, 2)], [(2, 1)]⟩) :=
  C3_insert_raises_iff Bimap.new 1 2

/-- C4: Round trip — when neither `k` nor `v` is present, `insert k v`
succeeds and afterwards `get_fwd k = some v` and `get_rev v = some k`. -/
theorem C4_round_trip {K V : Type} [DecidableEq K] [DecidableEq V]
    (m : Bimap K V) (k : K) (v : V)
    (hk : m.contains_fwd k = false) (hv : m.contains_rev v = false) :
    ∃ m', m.insert k v = .ok m' ∧ m'.get_fwd k = some v ∧
      m'.get_rev v = some k := by
  refine ⟨⟨(k, v) :: m.fwd, (v, k) :: m.rev⟩, ?_, ?_, ?_⟩
  · exact Bimap.insert_eq_ok_iff.mpr
      ⟨isSome_false_eq_none hk, isSome_false_eq_none hv, rfl⟩
  · show hfind ((k, v) :: m.fwd) k = some v
    rw [hfind_cons, if_pos rfl]
  · show hfind ((v, k) :: m.rev) v = some k
    rw [hfind_cons, if_pos rfl]

theorem C4_round_trip_witness :
    ∃ m', (Bimap.new : Bimap Nat Nat).insert 1 2 = .ok m' ∧
      m'.get_fwd 1 = some 2 ∧ m'.get_rev 2 = some 1 :=
  C4_round_trip Bimap.new 1 2 rfl rfl

/-- C5: Removal symmetry — on a well-formed bimap with `get_fwd k = some v`,
`remove_fwd k` returns `v`, and afterwards `contains_fwd k` and
`contains_rev v` are false and the length drops by exactly one. -/
theorem C5_removal_symmetry {K V : Type} [DecidableEq K] [DecidableEq V]
    (m : Bimap K V) (k : K) (v : V) (hw : m.WF)
    (hf : m.get_fwd k = some v) :
    ∃ m', m.remove_fwd k = some (v, m') ∧
      m'.contains_fwd k = false ∧ m'.contains_rev v = false ∧
      m'.len + 1 = m.len := by
  obtain ⟨hnf, hnr, hbij, hlen⟩ := hw
  have hf1 : hfind m.fwd k = some v := hf
  refine ⟨⟨herase m.fwd k, herase m.rev v⟩, ?_, ?_, ?_, ?_⟩
  · exact Bimap.remove_fwd_eq_some_iff.mpr ⟨hf1, rfl⟩
  · show (hfind (herase m.fwd k) k).isSome = false
    rw [hfind_herase_self hnf]
    rfl
  · show (hfind (herase m.rev v) v).isSome = false
    rw [hfind_herase_self hnr]
    rfl
  · show (herase m.fwd k).length + 1 = m.fwd.length
    exact length_herase (mem_hkeys (hfind_mem hf1))

theorem C5_removal_symmetry_witness :
    ∃ m', (⟨[(0, 1)], [(1, 0)]⟩ : Bimap (Fin 2) (Fin 2)).remove_fwd 0 =
        some (1, m') ∧
      m'.contains_fwd 0 = false ∧ m'.contains_rev 1 = false ∧
      m'.len + 1 = (⟨[(0, 1)], [(1, 0)]⟩ : Bimap (Fin 2) (Fin 2)).len :=
  C5_removal_symmetry ⟨[(0, 1)], [(1, 0)]⟩ 0 1 (by decide) rfl

/-- C6: Removal failure policy — `remove_fwd` panics when the key is absent
from the forward index and `remove_rev` panics when the value is absent from
the reverse index. -/
theorem C6_removal_failure_policy {K V : Type} [DecidableEq K] [DecidableEq V]
    (m : Bimap K V) (k : K) (v : V) :
    (m.contains_fwd k = false → m.remove_fwd k = none) ∧
    (m.contains_rev v = false → m.remove_rev v = none) := by
  constructor
  · intro h
    simp [Bimap.remove_fwd, isSome_false_eq_none h]
  · intro h
    simp [Bimap.remove_rev, isSome_false_eq_none h]

theorem C6_removal_failure_policy_witness :
    ((Bimap.new : Bimap Nat Nat).contains_fwd 1 = false →
      (Bimap.new : Bimap Nat Nat).remove_fwd 1 = none) ∧
    ((Bimap.new : Bimap Nat Nat).contains_rev 2 = false →
      (Bimap.new : Bimap Nat Nat).remove_rev 2 = none) :=
  C6_removal_failure_policy Bimap.new 1 2

/-- C7: `from_hash_map` — on a duplicate-free input mapping that is also
value-unique, every input pair is found in both directions; in general the
reverse index is the last inversion of each value (later pairs overwrite
earlier ones) and keeps at most one key per value. -/
theorem C7_from_hash_map {K V : Type} [DecidableEq K] [DecidableEq V]
    (l : List (K × V)) (hn : HKeysNodup l) :
    ((l.map Prod.snd).Nodup →
      ∀ k v, (k, v) ∈ l →
        (Bimap.from_hash_map l).get_fwd k = some v ∧
        (Bimap.from_hash_map l).get_rev v = some k) ∧
    (∀ v, (Bimap.from_hash_map l).get_rev v =
      hfind (l.reverse.map (fun q => (q.2, q.1))) v) ∧
    HKeysNodup (Bimap.from_hash_map l).rev := by
  have hpart2 : ∀ v, (Bimap.from_hash_map l).get_rev v =
      hfind (l.reverse.map (fun q => (q.2, q.1))) v := by
    intro v
    show hfind (l.foldl (fun r p => hinsert r p.2 p.1) []) v = _
    rw [hfind_fold_hinsert]
    generalize hfind (l.reverse.map (fun q => (q.2, q.1))) v = o
    rcases o with _ | a
    · rfl
    · rfl
  refine ⟨?_, hpart2, ?_⟩
  · intro hvn k v hmem
    refine ⟨mem_hfind hn hmem, ?_⟩
    rw [hpart2]
    apply mem_hfind
    · show (hkeys (l.reverse.map (fun q => (q.2, q.1)))).Nodup
      have hkeq : hkeys (l.reverse.map (fun q => (q.2, q.1))) =
          (l.map Prod.snd).reverse := by
        show List.map Prod.fst (l.reverse.map (fun q => (q.2, q.1))) = _
        rw [List.map_map, List.map_reverse]
        rfl
      rw [hkeq]
      exact List.nodup_reverse.mpr hvn
    · exact List.mem_map.mpr ⟨(k, v), List.mem_reverse.mpr hmem, rfl⟩
  · show HKeysNodup (l.foldl (fun r p => hinsert r p.2 p.1) [])
    exact hkeys_nodup_fold l [] List.nodup_nil

theorem C7_from_hash_map_witness :
    (Bimap.from_hash_map ([(1, 10), (2, 20)] : List (Nat × Nat))).get_rev 10 =
      some 1 :=
  ((C7_from_hash_map [(1, 10), (2, 20)] (by decide)).1 (by decide) 1 10
    (by decide)).2

/-- C8: Count consistency — in every reachable state, `len` equals the
number of pairs yielded by `iter`, both indexes have the same number of
entries, and `is_empty` holds iff `len = 0`. -/
theorem C8_count_consistency {K V : Type} [DecidableEq K] [DecidableEq V]
    {m : Bimap K V} (h : Bimap.Reachable m) :
    m.len = m.iter.length ∧ m.fwd.length = m.rev.length ∧
      (m.is_empty = true ↔ m.len = 0) := by
  refine ⟨rfl, (Bimap.reachable_wf h).2.2.2, ?_⟩
  show m.fwd.isEmpty = true ↔ m.fwd.length = 0
  simp [List.isEmpty_iff, List.length_eq_zero]

theorem C8_count_consistency_witness :
    (⟨[(3, 4)], [(4, 3)]⟩ : Bimap Nat Nat).len =
        (⟨[(3, 4)], [(4, 3)]⟩ : Bimap Nat Nat).iter.length ∧
      (⟨[(3, 4)], [(4, 3)]⟩ : Bimap Nat Nat).fwd.length =
        (⟨[(3, 4)], [(4, 3)]⟩ : Bimap Nat Nat).rev.length ∧
      ((⟨[(3, 4)], [(4, 3)]⟩ : Bimap Nat Nat).is_empty = true ↔
        (⟨[(3, 4)], [(4, 3)]⟩ : Bimap Nat Nat).len = 0) :=
  C8_count_consistency (Bimap.Reachable.step Bimap.Reachable.empty
    (Bimap.Step.insert Bimap.new ⟨[(3, 4)], [(4, 3)]⟩ 3 4 rfl))

/-- C9: `clear` empties fully — after `clear`, the length is zero, the map
is empty, and every lookup in either direction reports absence. -/
theorem C9_clear_empties {K V : Type} [DecidableEq K] [DecidableEq V]
    (m : Bimap K V) (k : K) (v : V) :
    m.clear.len = 0 ∧ m.clear.is_empty = true ∧
    m.clear.get_fwd k = none ∧ m.clear.get_rev v = none ∧
    m.clear.contains_fwd k = false ∧ m.clear.contains_rev v = false :=
  ⟨rfl, rfl, rfl, rfl, rfl, rfl⟩

/-- C10: Insert then remove is the identity — when neither `k` nor `v` is
present, `insert k v` followed by `remove_fwd k` returns `v` and restores
exactly the original map state; likewise `remove_rev v` returns `k`. -/
theorem C10_insert_remove_inverse {K V : Type} [DecidableEq K] [DecidableEq V]
    (m : Bimap K V) (k : K) (v : V)
    (hk : m.contains_fwd k = false) (hv : m.contains_rev v = false) :
    (∃ m', m.insert k v = .ok m' ∧ m'.remove_fwd k = some (v, m)) ∧
    (∃ m', m.insert k v = .ok m' ∧ m'.remove_rev v = some (k, m)) := by
  have hok : m.insert k v = .ok ⟨(k, v) :: m.fwd, (v, k) :: m.rev⟩ :=
    Bimap.insert_eq_ok_iff.mpr
      ⟨isSome_false_eq_none hk, isSome_false_eq_none hv, rfl⟩
  constructor
  · refine ⟨_, hok, Bimap.remove_fwd_eq_some_iff.mpr ⟨?_, ?_⟩⟩
    · show hfind ((k, v) :: m.fwd) k = some v
      rw [hfind_cons, if_pos rfl]
    · show m = ⟨herase ((k, v) :: m.fwd) k, herase ((v, k) :: m.rev) v⟩
      rw [herase_cons, if_pos rfl, herase_cons, if_pos rfl]
  · refine ⟨_, hok, Bimap.remove_rev_eq_some_iff.mpr ⟨?_, ?_⟩⟩
    · show hfind ((v, k) :: m.rev) v = some k
      rw [hfind_cons, if_pos rfl]
    · show m = ⟨herase ((k, v) :: m.fwd) k, herase ((v, k) :: m.rev) v⟩
      rw [herase_cons, if_pos rfl, herase_cons, if_pos rfl]

theorem C10_insert_remove_inverse_witness :
    (∃ m', (Bimap.new : Bimap Nat Nat).insert 1 2 = .ok m' ∧
      m'.remove_fwd 1 = some (2, Bimap.new)) ∧
    (∃ m', (Bimap.new : Bimap Nat Nat).insert 1 2 = .ok m' ∧
      m'.remove_rev 2 = some (1, Bimap.new)) :=
  C10_insert_remove_inverse Bimap.new 1 2 rfl rfl
